import Mathlib

/-!
Shallow embedding of `src/bin/normalize.py` (the Rule Normalizer core).

Python text is modelled as `List Char`; the character-class predicates
(`str.strip` whitespace, `\w`, `re.IGNORECASE`) follow Python's semantics
on the ASCII range.

The policy-detection regex
`,(DIRECT|REJECT|REJECT-DROP|PROXY|Isolate|[\w_]+_Nodes|[\w_]+_Services)$`
is used with `re.search`.  Every alternative is comma-free (the literals
contain no comma and `\w` never matches a comma), so a match must start at
the LAST comma of the line and cover exactly the final comma-delimited
field; the search succeeds iff the line contains a comma and the text after
its last comma fully matches one of the alternatives.  `hasPolicySuffix`
below encodes exactly that.
-/

namespace Shadowtree

/-- The six ASCII whitespace characters stripped by Python `str.strip()`. -/
def pyIsSpace (c : Char) : Bool :=
  c == ' ' || c == '\t' || c == '\n' || c == '\r' || c == '\x0b' || c == '\x0c'

/-- `str.lstrip()`. -/
def pyLStrip (l : List Char) : List Char := l.dropWhile pyIsSpace

/-- `str.rstrip()`. -/
def pyRStrip (l : List Char) : List Char := (l.reverse.dropWhile pyIsSpace).reverse

/-- `line.strip()` from `process_line`. -/
def pyStrip (l : List Char) : List Char := pyRStrip (pyLStrip l)

/-- `str.startswith` for a single needle. -/
def pyStartsWith (needle l : List Char) : Bool := needle.isPrefixOf l

/-- The tuple in `line.startswith(('DOMAIN', 'IP-', 'GEOIP', 'USER-', 'RULE-SET', 'DOMAIN-SET'))`. -/
def ruleKeywords : List (List Char) :=
  ["DOMAIN".data, "IP-".data, "GEOIP".data, "USER-".data, "RULE-SET".data, "DOMAIN-SET".data]

/-- `line.startswith((...))` over the keyword tuple (case-sensitive, as in the source). -/
def startsWithRuleKeyword (l : List Char) : Bool :=
  ruleKeywords.any (fun k => pyStartsWith k l)

/-- `is_rule_format = ',' in line or line.startswith((...))`. -/
def isRuleFormat (l : List Char) : Bool :=
  decide (',' ∈ l) || startsWithRuleKeyword l

/-- The conditional rewrite `line = f"DOMAIN-SUFFIX,{line}"` applied when
`not is_rule_format`. -/
def upgradeBare (l : List Char) : List Char :=
  if isRuleFormat l then l else "DOMAIN-SUFFIX,".data ++ l

/-- Case-insensitive equality of ASCII strings, as `re.IGNORECASE` compares them. -/
def ciEq (a b : List Char) : Bool :=
  a.map Char.toLower == b.map Char.toLower

/-- Python `\w` on the ASCII range: letters, digits, underscore. -/
def pyIsWordChar (c : Char) : Bool := c.isAlphanum || c == '_'

/-- Full match of a field against `[\w_]+<suf>` (with `re.IGNORECASE` on the
literal `suf`): a non-empty run of word characters followed by `suf`. -/
def isGroupTok (f suf : List Char) : Bool :=
  decide (suf.length < f.length) &&
    (f.take (f.length - suf.length)).all pyIsWordChar &&
    ciEq (f.drop (f.length - suf.length)) suf

/-- Full match of a field against the regex alternation
`DIRECT|REJECT|REJECT-DROP|PROXY|Isolate|[\w_]+_Nodes|[\w_]+_Services`
under `re.IGNORECASE`. -/
def isPolicyToken (f : List Char) : Bool :=
  ciEq f "DIRECT".data || ciEq f "REJECT".data || ciEq f "REJECT-DROP".data ||
  ciEq f "PROXY".data || ciEq f "Isolate".data ||
  isGroupTok f "_Nodes".data || isGroupTok f "_Services".data

/-- The final comma-delimited field: the text after the last comma, or `none`
when the line has no comma. -/
def lastField? (l : List Char) : Option (List Char) :=
  if ',' ∈ l then some ((l.reverse.takeWhile (fun c => !(c == ','))).reverse) else none

/-- `re.search(r',(DIRECT|REJECT|REJECT-DROP|PROXY|Isolate|[\w_]+_Nodes|[\w_]+_Services)$', line, re.IGNORECASE)`
succeeds: the final comma-delimited field exists and matches the alternation
(see the header comment for why the search reduces to the last field). -/
def hasPolicySuffix (l : List Char) : Bool :=
  match lastField? l with
  | none => false
  | some f => isPolicyToken f

/-- The tail of `process_line`: return the line if the policy regex matches,
otherwise `f"{line},{default_policy}"`. -/
def withPolicy (l dp : List Char) : List Char :=
  if hasPolicySuffix l then l else l ++ ',' :: dp

/-- Embedding of `process_line(line, default_policy)` from `src/bin/normalize.py`.
`none` is the skip signal (Python `None`). -/
def process_line (line dp : List Char) : Option (List Char) :=
  let l := pyStrip line
  if l.isEmpty || pyStartsWith ['#'] l then none
  else some (withPolicy (upgradeBare l) dp)

/-- The driver's per-line loop (stdout lines for a list of input lines):
`for line in stdin: r = process_line(line, policy); if r: print(r)`.
Modelled for the independence claim only; note a non-skipped result is never
the empty string, so Python's truthiness test agrees with `Option`. -/
def runLines (ls : List (List Char)) (dp : List Char) : List (List Char) :=
  ls.filterMap (fun l => process_line l dp)

/-! ### Helper lemmas about the embedded text primitives -/

theorem dropWhile_eq_self_of_head (p : Char → Bool) (l : List Char)
    (h : ∀ c, l.head? = some c → p c = false) : l.dropWhile p = l := by
  cases l with
  | nil => rfl
  | cons a t => simp [List.dropWhile_cons, h a rfl]

theorem head_dropWhile_false (p : Char → Bool) (l : List Char) (c : Char)
    (h : (l.dropWhile p).head? = some c) : p c = false := by
  induction l with
  | nil => simp at h
  | cons a t ih =>
    rw [List.dropWhile_cons] at h
    cases hp : p a with
    | true => exact ih (by simpa [hp] using h)
    | false =>
      rw [hp, if_neg Bool.false_ne_true, List.head?_cons, Option.some_inj] at h
      rwa [← h]

theorem takeWhile_append_all (p : Char → Bool) (xs ys : List Char)
    (h : ∀ c ∈ xs, p c = true) : (xs ++ ys).takeWhile p = xs ++ ys.takeWhile p := by
  induction xs with
  | nil => rfl
  | cons a t ih =>
    have ht : ∀ c ∈ t, p c = true := fun c hc => h c (List.mem_cons_of_mem a hc)
    rw [List.cons_append, List.takeWhile_cons, h a (List.mem_cons_self a t),
      if_pos rfl, List.cons_append, ih ht]

theorem takeWhile_cons_false (p : Char → Bool) (a : Char) (l : List Char)
    (h : p a = false) : (a :: l).takeWhile p = [] := by
  simp [List.takeWhile_cons, h]

theorem takeWhile_append_of_mem (p : Char → Bool) (xs ys : List Char)
    (hx : ∃ c ∈ xs, p c = false) : (xs ++ ys).takeWhile p = xs.takeWhile p := by
  induction xs with
  | nil =>
    rcases hx with ⟨c, hc, _⟩
    simp at hc
  | cons a t ih =>
    cases hp : p a with
    | false => simp [List.takeWhile_cons, hp]
    | true =>
      simp only [List.cons_append, List.takeWhile_cons, hp, if_true]
      rcases hx with ⟨c, hc, hcf⟩
      rcases List.mem_cons.mp hc with rfl | hct
      · rw [hp] at hcf; cases hcf
      · rw [ih ⟨c, hct, hcf⟩]

theorem lastField_append_no_comma (x f : List Char) (hf : ¬ ',' ∈ f) :
    lastField? (x ++ ',' :: f) = some f := by
  have hmem : ',' ∈ x ++ ',' :: f := by simp
  unfold lastField?
  rw [if_pos hmem]
  have hrev : (x ++ ',' :: f).reverse = f.reverse ++ ',' :: x.reverse := by
    simp [List.reverse_append]
  rw [hrev, takeWhile_append_all _ _ _ (fun c hc => ?_),
    takeWhile_cons_false _ _ _ (by decide)]
  · simp
  · have hcf : c ∈ f := List.mem_reverse.mp hc
    have hne : (c == ',') = false := beq_eq_false_iff_ne.mpr fun h => hf (h ▸ hcf)
    simp [hne]

theorem lastField_append_mem (x y : List Char) (hy : ',' ∈ y) :
    lastField? (x ++ y) = lastField? y := by
  unfold lastField?
  rw [if_pos (by simp [hy]), if_pos hy]
  have h : (y.reverse ++ x.reverse).takeWhile (fun c => !(c == ','))
      = y.reverse.takeWhile (fun c => !(c == ',')) :=
    takeWhile_append_of_mem _ _ _ ⟨',', List.mem_reverse.mpr hy, by decide⟩
  rw [List.reverse_append, h]

theorem hasPolicySuffix_append (x y : List Char) (hy : ',' ∈ y) :
    hasPolicySuffix (x ++ y) = hasPolicySuffix y := by
  unfold hasPolicySuffix
  rw [lastField_append_mem x y hy]

theorem mem_of_hasPolicySuffix (l : List Char) (h : hasPolicySuffix l = true) :
    ',' ∈ l := by
  unfold hasPolicySuffix lastField? at h
  by_cases hm : ',' ∈ l
  · exact hm
  · rw [if_neg hm] at h
    simp at h

theorem pyLStrip_eq_self (l : List Char)
    (h : ∀ c, l.head? = some c → pyIsSpace c = false) : pyLStrip l = l :=
  dropWhile_eq_self_of_head _ _ h

theorem pyRStrip_eq_self (l : List Char)
    (h : ∀ c, l.getLast? = some c → pyIsSpace c = false) : pyRStrip l = l := by
  unfold pyRStrip
  rw [dropWhile_eq_self_of_head _ _ (fun c hc => h c (by rwa [List.head?_reverse] at hc)),
    List.reverse_reverse]

theorem pyStrip_eq_self (l : List Char)
    (h1 : ∀ c, l.head? = some c → pyIsSpace c = false)
    (h2 : ∀ c, l.getLast? = some c → pyIsSpace c = false) : pyStrip l = l := by
  unfold pyStrip
  rw [pyLStrip_eq_self l h1, pyRStrip_eq_self l h2]

theorem pyRStrip_append_tail (l : List Char) : ∃ t, l = pyRStrip l ++ t := by
  refine ⟨(l.reverse.takeWhile pyIsSpace).reverse, ?_⟩
  unfold pyRStrip
  conv_lhs => rw [← l.reverse_reverse, ← List.takeWhile_append_dropWhile (p := pyIsSpace) (l := l.reverse)]
  rw [List.reverse_append]

theorem head_pyStrip_not_space (L : List Char) (c : Char)
    (h : (pyStrip L).head? = some c) : pyIsSpace c = false := by
  unfold pyStrip at h
  obtain ⟨t, ht⟩ := pyRStrip_append_tail (pyLStrip L)
  have hx : (pyLStrip L).head? = some c := by
    conv_lhs => rw [ht]
    rw [List.head?_append, h]
    rfl
  exact head_dropWhile_false pyIsSpace L c hx

theorem getLast_pyStrip_not_space (L : List Char) (c : Char)
    (h : (pyStrip L).getLast? = some c) : pyIsSpace c = false := by
  unfold pyStrip pyRStrip at h
  rw [List.getLast?_reverse] at h
  exact head_dropWhile_false pyIsSpace (pyLStrip L).reverse c h

theorem startsWith_hash_iff (l : List Char) :
    pyStartsWith ['#'] l = true ↔ l.head? = some '#' := by
  cases l with
  | nil => decide
  | cons a t =>
    have hd : pyStartsWith ['#'] (a :: t) = ('#' == a) := by
      show (['#'] : List Char).isPrefixOf (a :: t) = _
      rw [List.isPrefixOf_cons₂,
        show List.isPrefixOf ([] : List Char) t = true by cases t <;> rfl, Bool.and_true]
    rw [hd, List.head?_cons]
    constructor
    · intro h
      rw [← beq_iff_eq.mp h]
    · intro h
      rw [Option.some_inj.mp h]
      rfl

theorem process_line_some_iff (L dp r : List Char) :
    process_line L dp = some r ↔
      pyStrip L ≠ [] ∧ pyStartsWith ['#'] (pyStrip L) = false ∧
        r = withPolicy (upgradeBare (pyStrip L)) dp := by
  have hdef : process_line L dp =
      if ((pyStrip L).isEmpty || pyStartsWith ['#'] (pyStrip L)) then none
      else some (withPolicy (upgradeBare (pyStrip L)) dp) := rfl
  rw [hdef]
  by_cases h : ((pyStrip L).isEmpty || pyStartsWith ['#'] (pyStrip L)) = true
  · rw [if_pos h]
    simp only [Bool.or_eq_true, List.isEmpty_iff] at h
    constructor
    · intro hc
      exact Option.noConfusion hc
    · rintro ⟨hne, hh, _⟩
      rcases h with h | h
      · exact absurd h hne
      · rw [h] at hh
        exact Bool.noConfusion hh
  · rw [if_neg h]
    simp only [Bool.or_eq_true, List.isEmpty_iff, not_or, Bool.not_eq_true] at h
    obtain ⟨hne, hh⟩ := h
    constructor
    · intro hc
      exact ⟨hne, hh, (Option.some_inj.mp hc).symm⟩
    · rintro ⟨_, _, rfl⟩
      rfl

theorem withPolicy_pos (l dp : List Char) (h : hasPolicySuffix l = true) :
    withPolicy l dp = l := by
  unfold withPolicy
  rw [if_pos h]

theorem withPolicy_neg (l dp : List Char) (h : hasPolicySuffix l = false) :
    withPolicy l dp = l ++ ',' :: dp := by
  unfold withPolicy
  rw [if_neg (fun hc => Bool.noConfusion (h ▸ hc))]

theorem upgradeBare_pos (l : List Char) (h : isRuleFormat l = true) :
    upgradeBare l = l := by
  unfold upgradeBare
  rw [if_pos h]

theorem upgradeBare_neg (l : List Char) (h : isRuleFormat l = false) :
    upgradeBare l = "DOMAIN-SUFFIX,".data ++ l := by
  unfold upgradeBare
  rw [if_neg (fun hc => Bool.noConfusion (h ▸ hc))]

theorem isRuleFormat_of_mem (l : List Char) (h : ',' ∈ l) : isRuleFormat l = true := by
  unfold isRuleFormat
  rw [decide_eq_true h, Bool.true_or]

theorem getLast_comma_cons_not_space (dp : List Char)
    (h : ∀ c ∈ dp, pyIsSpace c = false) :
    ∀ c, (',' :: dp).getLast? = some c → pyIsSpace c = false := by
  intro c hc
  rw [List.getLast?_eq_getLast_of_ne_nil (List.cons_ne_nil _ _), Option.some_inj] at hc
  have hm : (',' :: dp).getLast (List.cons_ne_nil _ _) ∈ ',' :: dp := List.getLast_mem _
  rw [hc] at hm
  rcases List.mem_cons.mp hm with rfl | hmem
  · decide
  · exact h c hmem

theorem head_append_of_head (x y : List Char) (c : Char) (h : x.head? = some c) :
    (x ++ y).head? = some c := by
  rw [List.head?_append, h]
  rfl

/-- Shared structural facts about every non-skipped output of `process_line`:
its first character exists, is not whitespace and is not `#`; it contains a
comma; and (for a whitespace-free default policy) its last character exists
and is not whitespace. -/
theorem normalized_shape (L dp r : List Char) (hr : process_line L dp = some r) :
    (∃ c, r.head? = some c ∧ pyIsSpace c = false ∧ c ≠ '#') ∧ ',' ∈ r ∧
      ((∀ c ∈ dp, pyIsSpace c = false) →
        ∃ c, r.getLast? = some c ∧ pyIsSpace c = false) := by
  obtain ⟨hne, hnh, hrw⟩ := (process_line_some_iff L dp r).mp hr
  obtain ⟨c0, t0, hl⟩ := List.exists_cons_of_ne_nil hne
  have head0 : (pyStrip L).head? = some c0 := by rw [hl]; rfl
  have hs0 : pyIsSpace c0 = false := head_pyStrip_not_space L c0 head0
  have hh0 : c0 ≠ '#' := by
    intro hEq
    rw [(startsWith_hash_iff (pyStrip L)).mpr (by rw [head0, hEq])] at hnh
    exact Bool.noConfusion hnh
  have hlast : ∃ cl, (pyStrip L).getLast? = some cl ∧ pyIsSpace cl = false := by
    cases hgl : (pyStrip L).getLast? with
    | none => exact absurd (List.getLast?_eq_none_iff.mp hgl) hne
    | some cl => exact ⟨cl, rfl, getLast_pyStrip_not_space L cl hgl⟩
  obtain ⟨cl, hgl, hsl⟩ := hlast
  have hu : ∃ ch, (upgradeBare (pyStrip L)).head? = some ch ∧
      pyIsSpace ch = false ∧ ch ≠ '#' := by
    by_cases hb : isRuleFormat (pyStrip L) = true
    · rw [upgradeBare_pos _ hb]
      exact ⟨c0, head0, hs0, hh0⟩
    · rw [upgradeBare_neg _ (Bool.not_eq_true _ ▸ hb)]
      exact ⟨'D', rfl, by decide, by decide⟩
  have huLast : (upgradeBare (pyStrip L)).getLast? = some cl := by
    by_cases hb : isRuleFormat (pyStrip L) = true
    · rw [upgradeBare_pos _ hb]
      exact hgl
    · rw [upgradeBare_neg _ (Bool.not_eq_true _ ▸ hb),
        List.getLast?_append_of_ne_nil _ hne]
      exact hgl
  obtain ⟨ch, hch, hchs, hchh⟩ := hu
  by_cases hps : hasPolicySuffix (upgradeBare (pyStrip L)) = true
  · have hru : r = upgradeBare (pyStrip L) := by rw [hrw, withPolicy_pos _ _ hps]
    refine ⟨⟨ch, by rw [hru]; exact hch, hchs, hchh⟩, ?_, ?_⟩
    · rw [hru]
      exact mem_of_hasPolicySuffix _ hps
    · intro _
      exact ⟨cl, by rw [hru]; exact huLast, hsl⟩
  · have hru : r = upgradeBare (pyStrip L) ++ ',' :: dp := by
      rw [hrw, withPolicy_neg _ _ (Bool.not_eq_true _ ▸ hps)]
    refine ⟨⟨ch, by rw [hru]; exact head_append_of_head _ _ _ hch, hchs, hchh⟩, ?_, ?_⟩
    · rw [hru]
      simp
    · intro hdp
      cases hgl2 : (',' :: dp).getLast? with
      | none => exact absurd (List.getLast?_eq_none_iff.mp hgl2) (List.cons_ne_nil _ _)
      | some c2 =>
        refine ⟨c2, ?_, getLast_comma_cons_not_space dp hdp c2 hgl2⟩
        rw [hru, List.getLast?_append_of_ne_nil _ (List.cons_ne_nil _ _)]
        exact hgl2

/-- A trimmed, non-skippable line that already carries a policy is a fixed
point of `process_line`. -/
theorem renormalize_fixed (r dp : List Char) (h1 : pyStrip r = r) (h2 : r ≠ [])
    (h3 : pyStartsWith ['#'] r = false) (h4 : hasPolicySuffix r = true) :
    process_line r dp = some r := by
  rw [process_line_some_iff]
  refine ⟨by rwa [h1], by rwa [h1], ?_⟩
  rw [h1, upgradeBare_pos r (isRuleFormat_of_mem r (mem_of_hasPolicySuffix r h4)),
    withPolicy_pos r dp h4]

-- sanity checks against the unit tests in src/tests/unit/test_normalize.py
example : process_line "DOMAIN-SUFFIX,example.com".data "REJECT".data
    = some "DOMAIN-SUFFIX,example.com,REJECT".data := by decide
example : process_line "DOMAIN-SUFFIX,example.com,DIRECT".data "REJECT".data
    = some "DOMAIN-SUFFIX,example.com,DIRECT".data := by decide
example : process_line "DOMAIN,test.com,REJECT-DROP".data "REJECT".data
    = some "DOMAIN,test.com,REJECT-DROP".data := by decide
example : process_line "IP-CIDR,192.168.0.0/16".data "DIRECT".data
    = some "IP-CIDR,192.168.0.0/16,DIRECT".data := by decide
example : process_line "# This is a comment".data "REJECT".data = none := by decide
example : process_line "   # Indented comment".data "REJECT".data = none := by decide
example : process_line "".data "REJECT".data = none := by decide
example : process_line "   ".data "REJECT".data = none := by decide
example : process_line "google.com".data "REJECT".data
    = some "DOMAIN-SUFFIX,google.com,REJECT".data := by decide

/-! ### Claim theorems -/

/-- Claim C1, counterexample: idempotence fails when the caller-supplied
default policy is a non-empty token outside the policy vocabulary.  With
`FOO`, normalizing `google.com` yields `DOMAIN-SUFFIX,google.com,FOO`, and
re-normalizing that non-skip output appends the default a second time. -/
theorem c1_counterexample :
    process_line "google.com".data "FOO".data
      = some "DOMAIN-SUFFIX,google.com,FOO".data ∧
    process_line "DOMAIN-SUFFIX,google.com,FOO".data "FOO".data
      = some "DOMAIN-SUFFIX,google.com,FOO,FOO".data ∧
    "DOMAIN-SUFFIX,google.com,FOO,FOO".data ≠ "DOMAIN-SUFFIX,google.com,FOO".data :=
  ⟨by decide, by decide, by decide⟩

/-- Claim C1 (amended): normalize is idempotent whenever the supplied default
policy is itself recognized by the policy pattern — appending `,<dp>` yields a
recognized trailing policy field — and contains no whitespace: re-normalizing
any non-skip output with the same default returns it unchanged. -/
theorem c1_idempotent (L dp r : List Char)
    (hr : process_line L dp = some r)
    (hdp : hasPolicySuffix (',' :: dp) = true)
    (hws : ∀ c ∈ dp, pyIsSpace c = false) :
    process_line r dp = some r := by
  obtain ⟨⟨ch, hch, hchs, hchh⟩, hmem, hlast⟩ := normalized_shape L dp r hr
  obtain ⟨cl, hcl, hcls⟩ := hlast hws
  have h2 : r ≠ [] := by
    intro hE
    rw [hE] at hch
    exact Option.noConfusion hch
  have h1 : pyStrip r = r :=
    pyStrip_eq_self r
      (fun c hc => by rw [hch, Option.some_inj] at hc; rwa [← hc])
      (fun c hc => by rw [hcl, Option.some_inj] at hc; rwa [← hc])
  have h3 : pyStartsWith ['#'] r = false := by
    cases hsw : pyStartsWith ['#'] r with
    | false => rfl
    | true =>
      have hhd := (startsWith_hash_iff r).mp hsw
      rw [hch] at hhd
      exact absurd (Option.some_inj.mp hhd) hchh
  have h4 : hasPolicySuffix r = true := by
    obtain ⟨hne, hnh, hrw⟩ := (process_line_some_iff L dp r).mp hr
    by_cases hps : hasPolicySuffix (upgradeBare (pyStrip L)) = true
    · rw [hrw, withPolicy_pos _ _ hps]
      exact hps
    · rw [hrw, withPolicy_neg _ _ (Bool.not_eq_true _ ▸ hps),
        hasPolicySuffix_append _ _ (List.mem_cons_self _ _)]
      exact hdp
  exact renormalize_fixed r dp h1 h2 h3 h4

/-- Witness for the amended C1 at a concrete input. -/
theorem c1_idempotent_witness :
    process_line "DOMAIN-SUFFIX,google.com,REJECT".data "REJECT".data
      = some "DOMAIN-SUFFIX,google.com,REJECT".data :=
  c1_idempotent "google.com".data "REJECT".data
    "DOMAIN-SUFFIX,google.com,REJECT".data (by decide) (by decide) (by decide)

/-- Claim C2, counterexample: a final field ending in `_Nodes` whose prefix
contains a non-word character (`my-group`) is NOT treated as a policy; the
default is appended, so the line is not returned unchanged. -/
theorem c2_counterexample :
    process_line "DOMAIN,x,my-group_Nodes".data "DIRECT".data
      = some "DOMAIN,x,my-group_Nodes,DIRECT".data ∧
    process_line "DOMAIN,x,my-group_Nodes".data "DIRECT".data
      ≠ some "DOMAIN,x,my-group_Nodes".data :=
  ⟨by decide, by decide⟩

/-- Claim C2 (amended): for every non-skipped line ending in `,<name>_Nodes` or
`,<name>_Services` (suffix matched case-insensitively) where `<name>` is a
NON-EMPTY run of word characters (letters, digits, underscore), normalize
treats the line as already having a policy and returns it unchanged. -/
theorem c2_group_suffix (stem f dp : List Char)
    (hgroup : isGroupTok f "_Nodes".data = true ∨ isGroupTok f "_Services".data = true)
    (hnc : ¬ ',' ∈ f)
    (htrim : pyStrip (stem ++ ',' :: f) = stem ++ ',' :: f)
    (hhash : pyStartsWith ['#'] (stem ++ ',' :: f) = false) :
    process_line (stem ++ ',' :: f) dp = some (stem ++ ',' :: f) := by
  have hmem : ',' ∈ stem ++ ',' :: f := by simp
  have hps : hasPolicySuffix (stem ++ ',' :: f) = true := by
    unfold hasPolicySuffix
    rw [lastField_append_no_comma stem f hnc]
    show isPolicyToken f = true
    unfold isPolicyToken
    rcases hgroup with h | h <;> simp [h]
  rw [process_line_some_iff]
  refine ⟨by rw [htrim]; simp, by rwa [htrim], ?_⟩
  rw [htrim, upgradeBare_pos _ (isRuleFormat_of_mem _ hmem), withPolicy_pos _ _ hps]

/-- Witness for the amended C2 at a concrete input. -/
theorem c2_group_suffix_witness :
    process_line ("DOMAIN,x".data ++ ',' :: "My_Nodes".data) "DIRECT".data
      = some ("DOMAIN,x".data ++ ',' :: "My_Nodes".data) :=
  c2_group_suffix "DOMAIN,x".data "My_Nodes".data "DIRECT".data
    (Or.inl (by decide)) (by decide) (by decide) (by decide)

/-- Claim C3, counterexample: the final field `_Services` ends in `_Services`
but has an empty name part, so it is NOT recognized as a policy; the claim as
stated says the line is returned unchanged, yet the code appends the default. -/
theorem c3_counterexample :
    process_line "DOMAIN,test.com,_Services".data "REJECT".data
      = some "DOMAIN,test.com,_Services,REJECT".data ∧
    process_line "DOMAIN,test.com,_Services".data "REJECT".data
      ≠ some "DOMAIN,test.com,_Services".data :=
  ⟨by decide, by decide⟩

/-- Claim C3 (amended): for every non-skipped line whose trailing
comma-delimited field matches the policy vocabulary (the literals, or a
non-empty word-character name followed by `_Nodes`/`_Services`, all
case-insensitive and anchored), normalize returns the (possibly rewritten)
line unchanged, preserving the original casing; in particular the
`REJECT-DROP` and lower-case `direct` examples hold as stated. -/
theorem c3_policy_preservation :
    (process_line "DOMAIN,test.com,REJECT-DROP".data "REJECT".data
      = some "DOMAIN,test.com,REJECT-DROP".data) ∧
    (process_line "DOMAIN,test.com,direct".data "REJECT".data
      = some "DOMAIN,test.com,direct".data) ∧
    ∀ L dp f, pyStrip L ≠ [] → pyStartsWith ['#'] (pyStrip L) = false →
      lastField? (upgradeBare (pyStrip L)) = some f → isPolicyToken f = true →
      process_line L dp = some (upgradeBare (pyStrip L)) := by
  refine ⟨by decide, by decide, ?_⟩
  intro L dp f hne hnh hlf hpt
  have hps : hasPolicySuffix (upgradeBare (pyStrip L)) = true := by
    unfold hasPolicySuffix
    rw [hlf]
    exact hpt
  rw [process_line_some_iff]
  exact ⟨hne, hnh, (withPolicy_pos _ _ hps).symm⟩

/-- Witness for the amended C3 at a concrete input. -/
theorem c3_policy_preservation_witness :
    process_line "DOMAIN-SUFFIX,example.com,DIRECT".data "REJECT".data
      = some (upgradeBare (pyStrip "DOMAIN-SUFFIX,example.com,DIRECT".data)) :=
  c3_policy_preservation.2.2 "DOMAIN-SUFFIX,example.com,DIRECT".data "REJECT".data
    "DIRECT".data (by decide) (by decide) (by decide) (by decide)

/-- Claim C4: every non-skipped output either preserves an already-recognized
trailing policy (line returned exactly as upgraded) or is the upgraded line
with `,<default_policy>` appended, appended only when no trailing policy was
present; in particular the `IP-CIDR` example holds. -/
theorem c4_default_append :
    (process_line "IP-CIDR,192.168.0.0/16".data "DIRECT".data
      = some "IP-CIDR,192.168.0.0/16,DIRECT".data) ∧
    ∀ L dp r, process_line L dp = some r →
      (hasPolicySuffix (upgradeBare (pyStrip L)) = true ∧
        r = upgradeBare (pyStrip L)) ∨
      (hasPolicySuffix (upgradeBare (pyStrip L)) = false ∧
        r = upgradeBare (pyStrip L) ++ ',' :: dp) := by
  refine ⟨by decide, ?_⟩
  intro L dp r hr
  obtain ⟨hne, hnh, hrw⟩ := (process_line_some_iff L dp r).mp hr
  by_cases hps : hasPolicySuffix (upgradeBare (pyStrip L)) = true
  · exact Or.inl ⟨hps, by rw [hrw, withPolicy_pos _ _ hps]⟩
  · have hps' : hasPolicySuffix (upgradeBare (pyStrip L)) = false :=
      Bool.not_eq_true _ ▸ hps
    exact Or.inr ⟨hps', by rw [hrw, withPolicy_neg _ _ hps']⟩

/-- Witness for C4 at a concrete input. -/
theorem c4_default_append_witness :
    (hasPolicySuffix (upgradeBare (pyStrip "IP-CIDR,192.168.0.0/16".data)) = true ∧
      "IP-CIDR,192.168.0.0/16,DIRECT".data
        = upgradeBare (pyStrip "IP-CIDR,192.168.0.0/16".data)) ∨
    (hasPolicySuffix (upgradeBare (pyStrip "IP-CIDR,192.168.0.0/16".data)) = false ∧
      "IP-CIDR,192.168.0.0/16,DIRECT".data
        = upgradeBare (pyStrip "IP-CIDR,192.168.0.0/16".data) ++ ',' :: "DIRECT".data) :=
  c4_default_append.2 "IP-CIDR,192.168.0.0/16".data "DIRECT".data
    "IP-CIDR,192.168.0.0/16,DIRECT".data (by decide)

/-- Claim C5: a trimmed non-skipped line is treated as already structured iff
it contains a comma or starts with one of the fixed keywords; otherwise
`process_line` continues with `DOMAIN-SUFFIX,<line>`; in particular
`google.com` with default `REJECT` yields `DOMAIN-SUFFIX,google.com,REJECT`. -/
theorem c5_structural_classification :
    (process_line "google.com".data "REJECT".data
      = some "DOMAIN-SUFFIX,google.com,REJECT".data) ∧
    ∀ L dp, pyStrip L = L → L ≠ [] → pyStartsWith ['#'] L = false →
      (isRuleFormat L = true ↔ (',' ∈ L ∨ startsWithRuleKeyword L = true)) ∧
      (isRuleFormat L = true → process_line L dp = some (withPolicy L dp)) ∧
      (isRuleFormat L = false →
        process_line L dp = some (withPolicy ("DOMAIN-SUFFIX,".data ++ L) dp)) := by
  refine ⟨by decide, ?_⟩
  intro L dp htrim hne hnh
  refine ⟨?_, ?_, ?_⟩
  · unfold isRuleFormat
    simp [Bool.or_eq_true, decide_eq_true_eq]
  · intro hb
    rw [process_line_some_iff]
    exact ⟨by rwa [htrim], by rwa [htrim], by rw [htrim, upgradeBare_pos _ hb]⟩
  · intro hb
    rw [process_line_some_iff]
    exact ⟨by rwa [htrim], by rwa [htrim], by rw [htrim, upgradeBare_neg _ hb]⟩

/-- Witness for C5 at a concrete input. -/
theorem c5_structural_classification_witness :
    (isRuleFormat "google.com".data = true ↔
      (',' ∈ "google.com".data ∨ startsWithRuleKeyword "google.com".data = true)) ∧
    (isRuleFormat "google.com".data = true →
      process_line "google.com".data "REJECT".data
        = some (withPolicy "google.com".data "REJECT".data)) ∧
    (isRuleFormat "google.com".data = false →
      process_line "google.com".data "REJECT".data
        = some (withPolicy ("DOMAIN-SUFFIX,".data ++ "google.com".data) "REJECT".data)) :=
  c5_structural_classification.2 "google.com".data "REJECT".data
    (by decide) (by decide) (by decide)

/-- Claim C6: `process_line` returns the skip signal iff the line, after
trimming, is empty or begins with `#`. -/
theorem c6_skip_iff (L dp : List Char) :
    process_line L dp = none ↔
      (pyStrip L = [] ∨ pyStartsWith ['#'] (pyStrip L) = true) := by
  have hdef : process_line L dp =
      if ((pyStrip L).isEmpty || pyStartsWith ['#'] (pyStrip L)) then none
      else some (withPolicy (upgradeBare (pyStrip L)) dp) := rfl
  rw [hdef]
  by_cases h : ((pyStrip L).isEmpty || pyStartsWith ['#'] (pyStrip L)) = true
  · rw [if_pos h]
    simp only [Bool.or_eq_true, List.isEmpty_iff] at h
    exact ⟨fun _ => h, fun _ => rfl⟩
  · rw [if_neg h]
    simp only [Bool.or_eq_true, List.isEmpty_iff, not_or, Bool.not_eq_true] at h
    obtain ⟨hne, hh⟩ := h
    constructor
    · intro hc
      exact Option.noConfusion hc
    · rintro (hc | hc)
      · exact absurd hc hne
      · rw [hc] at hh
        exact Bool.noConfusion hh

/-- Claim C7: `process_line` is total — for every input line and default
policy it returns either the skip signal or a canonical line; the embedding
is a total function, mirroring that the Python code can raise no exception. -/
theorem c7_totality (L dp : List Char) :
    process_line L dp = none ∨ ∃ r, process_line L dp = some r := by
  cases hv : process_line L dp with
  | none => exact Or.inl rfl
  | some r => exact Or.inr ⟨r, rfl⟩

/-- Claim C8: line processing has no cross-line dependence — the driver's
output over a concatenation of inputs is the concatenation of the outputs,
and the contribution of any single line in any surrounding context is exactly
`process_line` of that line alone, so reordering or batching inputs cannot
change any line's result. -/
theorem c8_line_independence :
    (∀ xs ys dp, runLines (xs ++ ys) dp = runLines xs dp ++ runLines ys dp) ∧
    (∀ xs L ys dp, runLines (xs ++ L :: ys) dp
      = runLines xs dp ++ (process_line L dp).toList ++ runLines ys dp) := by
  constructor
  · intro xs ys dp
    unfold runLines
    exact List.filterMap_append xs ys _
  · intro xs L ys dp
    unfold runLines
    rw [List.filterMap_append, List.append_assoc]
    congr 1
    cases hv : process_line L dp with
    | none => simp [List.filterMap_cons, hv]
    | some r => simp [List.filterMap_cons, hv]

/-- Claim C9: a non-skip result is itself never skip-worthy: it is non-empty,
does not begin with `#`, contains a comma, and (for a whitespace-free default
policy token) carries no leading or trailing whitespace. -/
theorem c9_output_not_skipworthy (L dp r : List Char)
    (hr : process_line L dp = some r) :
    r ≠ [] ∧ pyStartsWith ['#'] r = false ∧ ',' ∈ r ∧
      ((∀ c ∈ dp, pyIsSpace c = false) → pyStrip r = r) := by
  obtain ⟨⟨ch, hch, hchs, hchh⟩, hmem, hlast⟩ := normalized_shape L dp r hr
  have h2 : r ≠ [] := by
    intro hE
    rw [hE] at hch
    exact Option.noConfusion hch
  have h3 : pyStartsWith ['#'] r = false := by
    cases hsw : pyStartsWith ['#'] r with
    | false => rfl
    | true =>
      have hhd := (startsWith_hash_iff r).mp hsw
      rw [hch] at hhd
      exact absurd (Option.some_inj.mp hhd) hchh
  refine ⟨h2, h3, hmem, ?_⟩
  intro hws
  obtain ⟨cl, hcl, hcls⟩ := hlast hws
  exact pyStrip_eq_self r
    (fun c hc => by rw [hch, Option.some_inj] at hc; rwa [← hc])
    (fun c hc => by rw [hcl, Option.some_inj] at hc; rwa [← hc])

/-- Witness for C9 at a concrete input. -/
theorem c9_output_not_skipworthy_witness :
    "DOMAIN-SUFFIX,google.com,DIRECT".data ≠ [] ∧
    pyStartsWith ['#'] "DOMAIN-SUFFIX,google.com,DIRECT".data = false ∧
    ',' ∈ "DOMAIN-SUFFIX,google.com,DIRECT".data ∧
    ((∀ c ∈ "DIRECT".data, pyIsSpace c = false) →
      pyStrip "DOMAIN-SUFFIX,google.com,DIRECT".data
        = "DOMAIN-SUFFIX,google.com,DIRECT".data) :=
  c9_output_not_skipworthy "google.com".data "DIRECT".data
    "DOMAIN-SUFFIX,google.com,DIRECT".data (by decide)

/-- Claim C10: structural keyword recognition is case-sensitive — the
comma-free line `geoip` is classified as a bare domain and rewritten to
`DOMAIN-SUFFIX,geoip` (then given the default), while `GEOIP` is treated as
already structured. -/
theorem c10_keyword_case_sensitive :
    isRuleFormat "geoip".data = false ∧ isRuleFormat "GEOIP".data = true ∧
    process_line "geoip".data "DIRECT".data
      = some "DOMAIN-SUFFIX,geoip,DIRECT".data ∧
    process_line "GEOIP".data "DIRECT".data = some "GEOIP,DIRECT".data :=
  ⟨by decide, by decide, by decide, by decide⟩

end Shadowtree
